import Mathlib

/-!
Verification of the byte-range media-serving subsystem of OhioFiles
(`src/server.js`, route handler `app.get('/:storedName')`, lines 460-568).

The handler's decision logic is embedded here together with the two npm
helpers it calls:

* `range-parser@1.2.1` — called as `rangeParser(stats.size, range, { combine: true })`;
* `fresh@0.5.2` — called as `fresh(req.headers, { etag: fileETag })`,
  i.e. with no `last-modified` response header.

Strings are handled as `List Char` internally (JS `String.prototype.split`,
`parseInt`, `indexOf` are embedded as list functions).  File lookup, 404
handling and the actual streaming I/O are outside the decision logic and are
not modelled; the embedding starts from the descriptor tuple
`(size, mimeType, fileETag, originalName)` and the relevant request headers.
-/

namespace OhioFiles

/-- JS whitespace (the characters recognised by `parseInt`'s leading-space
skipping and by the `\s` class of `fresh`'s no-cache regexp, restricted to
the ASCII part plus NBSP; other Unicode space characters never occur in the
headers the claims quantify over). -/
def jsWhitespace (c : Char) : Bool :=
  c == ' ' || c == '\t' || c == '\n' || c == '\r' ||
  c == '\x0b' || c == '\x0c' || c == ' '

/-- Longest prefix of decimal digits (what `parseInt(s, 10)` consumes). -/
def takeDigits : List Char → List Char
  | [] => []
  | c :: cs => if c.isDigit then c :: takeDigits cs else []

/-- Numeric value of a list of decimal digits. -/
def digitsToNat (ds : List Char) : Nat :=
  ds.foldl (fun a c => a * 10 + (c.toNat - 48)) 0

/-- JS `parseInt(s, 10)`: skip leading whitespace, optional sign, read the
longest digit prefix; `none` models `NaN`. -/
def jsParseIntL (cs : List Char) : Option Int :=
  match cs.dropWhile jsWhitespace with
  | [] => none
  | c :: rest =>
    if c = '-' then
      let ds := takeDigits rest
      if ds.isEmpty then none else some (-(digitsToNat ds : Int))
    else if c = '+' then
      let ds := takeDigits rest
      if ds.isEmpty then none else some ((digitsToNat ds : Int))
    else
      let ds := takeDigits (c :: rest)
      if ds.isEmpty then none else some ((digitsToNat ds : Int))

/-- JS `String.prototype.split(sep)` for a one-character separator
(`"".split(sep) = [""]`, empty pieces kept). -/
def splitOnChar (sep : Char) : List Char → List (List Char)
  | [] => [[]]
  | c :: rest =>
    let r := splitOnChar sep rest
    if c = sep then [] :: r
    else
      match r with
      | [] => [[c]]
      | p :: ps => (c :: p) :: ps

/-- The slice `str.slice(str.indexOf('=') + 1)` when `'='` occurs, `none`
otherwise (the `index === -1` / return `-2` test of range-parser). -/
def afterFirstEq : List Char → Option (List Char)
  | [] => none
  | c :: cs => if c = '=' then some cs else afterFirstEq cs

/-! ## range-parser -/

/-- A parsed range with its position in the pushed `ranges` array
(range-parser's `mapWithIndex`). -/
structure IRange where
  start : Int
  «end» : Int
  index : Nat
deriving DecidableEq, Repr

/-- Insert keeping elements strictly smaller in front; used to model JS's
stable `Array.prototype.sort` with a numeric comparator (ties keep the
original order, so the inserted, originally-later element passes only
strictly smaller ones). -/
def insertByLt (lt : IRange → IRange → Bool) (x : IRange) : List IRange → List IRange
  | [] => [x]
  | y :: ys => if lt y x then y :: insertByLt lt x ys else x :: y :: ys

/-- Stable sort (insertion sort) modelling `Array.prototype.sort` with the
comparators `sortByRangeStart` / `sortByRangeIndex` of range-parser. -/
def isortBy (lt : IRange → IRange → Bool) : List IRange → List IRange
  | [] => []
  | x :: xs => insertByLt lt x (isortBy lt xs)

/-- One step of range-parser's `combineRanges` merge loop over the
start-sorted array: either finalize `current` and move on, or extend
`current` to cover an overlapping/adjacent range. -/
def mergeStep (acc : List IRange × IRange) (range : IRange) : List IRange × IRange :=
  let done := acc.1
  let current := acc.2
  if current.«end» + 1 < range.start then (current :: done, range)
  else if current.«end» < range.«end» then
    (done, ⟨current.start, range.«end», min current.index range.index⟩)
  else (done, current)

/-- The `combineRanges` pass of range-parser: sort by start (stable), merge
overlapping/adjacent ranges, then restore the order of first appearance by
sorting on the (merged-minimum) original index. -/
def combineRanges (ranges : List IRange) : List IRange :=
  let ordered := isortBy (fun a b => a.start < b.start) ranges
  match ordered with
  | [] => []
  | r :: rest =>
    let fin := rest.foldl mergeStep ([], r)
    isortBy (fun a b => a.index < b.index) ((fin.2 :: fin.1).reverse)

/-- A byte window as handed to `fs.createReadStream(filePath, { start, end })`,
both bounds inclusive. -/
structure ByteRange where
  start : Nat
  «end» : Nat
deriving DecidableEq, Repr

/-- Result of `rangeParser(size, str, opts)`: `-2` (malformed, no `'='`),
`-1` (no satisfiable range), or the array of ranges. -/
inductive RangeResult where
  | malformed
  | unsatisfiable
  | ranges (rs : List ByteRange)
deriving DecidableEq, Repr

/-- The per-range body of range-parser's loop: split on `'-'`,
`parseInt` both sides, apply the suffix (`-nnn`) and open-ended (`nnn-`)
rules, clamp the last-byte position to `size - 1`, and drop the range if it
is invalid or unsatisfiable (`NaN`, `start > end`, `start < 0`). -/
def parseOneRange (size : Int) (s : List Char) : Option (Int × Int) :=
  let parts := splitOnChar '-' s
  let start0 := jsParseIntL (parts.headD [])
  let end0 : Option Int :=
    match parts with
    | _ :: e :: _ => jsParseIntL e
    | _ => none
  let p1 : Option Int × Int :=
    match start0, end0 with
    | none, some e => (some (size - e), size - 1)
    | none, none => (none, size - 1)
    | some s0, none => (some s0, size - 1)
    | some s0, some e0 => (some s0, e0)
  match p1 with
  | (none, _) => none
  | (some st, en0) =>
    let en := if size - 1 < en0 then size - 1 else en0
    if en < st ∨ st < 0 then none else some (st, en)

/-- Attach the position in the array of valid ranges (range-parser's
`mapWithIndex` runs over the pushed `ranges` array). -/
def withIdx : List (Int × Int) → Nat → List IRange
  | [], _ => []
  | (s0, e0) :: rest, i => ⟨s0, e0, i⟩ :: withIdx rest (i + 1)

/-- The npm `range-parser@1.2.1` entry point `rangeParser(size, str, opts)`. -/
def rangeParser (size : Nat) (str : List Char) (combine : Bool) : RangeResult :=
  match afterFirstEq str with
  | none => .malformed
  | some specPart =>
    let arr := splitOnChar ',' specPart
    let valid := arr.filterMap (parseOneRange (size : Int))
    match valid with
    | [] => .unsatisfiable
    | _ =>
      let idxd := withIdx valid 0
      let combined := if combine then combineRanges idxd else idxd
      .ranges (combined.map (fun r => ⟨r.start.toNat, r.«end».toNat⟩))

/-! ## fresh -/

/-- The request headers the decision logic reads (`req.headers.range`,
plus the three keys read by `fresh`: `if-none-match`, `if-modified-since`,
`cache-control`).  `none` models an absent header. -/
structure ReqHeaders where
  range : Option String
  ifNoneMatch : Option String
  ifModifiedSince : Option String
  cacheControl : Option String
deriving DecidableEq, Repr

/-- JS truthiness of a possibly-absent header value: `undefined` and the
empty string are falsy. -/
def truthy : Option String → Bool
  | none => false
  | some s => !s.data.isEmpty

/-- Trim the space character (0x20, the only one fresh's `parseTokenList`
scanner skips) from both ends. -/
def trimSpaces (cs : List Char) : List Char :=
  ((cs.dropWhile (· == ' ')).reverse.dropWhile (· == ' ')).reverse

/-- The `parseTokenList` helper of fresh: its index scanner is equivalent to splitting
on commas, trimming spaces from each piece and dropping empty pieces
(each emitted token runs from the first to the last non-space character
between two commas). -/
def parseTokenList (s : String) : List String :=
  ((splitOnChar ',' s.data).map trimSpaces).filterMap
    (fun p => if p.isEmpty then none else some (String.mk p))

/-- Trim JS whitespace from both ends. -/
def trimWs (cs : List Char) : List Char :=
  ((cs.dropWhile jsWhitespace).reverse.dropWhile jsWhitespace).reverse

/-- The `CACHE_CONTROL_NO_CACHE_REGEXP` test of fresh,
regexp `(?:^|,)\s*?no-cache\s*?(?:,|$)`: since neither `\s` characters nor
`no-cache` contain a comma, the regexp matches exactly when some
comma-delimited piece of the value is `no-cache` surrounded only by
whitespace. -/
def noCacheTest (s : String) : Bool :=
  (splitOnChar ',' s.data).any (fun p => trimWs p == "no-cache".data)

/-- The npm `fresh@0.5.2` check, specialised to the handler's call site
`fresh(req.headers, { etag: fileETag })`: because the response-header
argument carries no `last-modified`, the `if-modified-since` block's
`modifiedStale = !lastModified || ...` is always true, so a truthy
`if-modified-since` request header always yields `false` (stale). -/
def fresh (req : ReqHeaders) (resEtag : String) : Bool :=
  let modifiedSince := req.ifModifiedSince
  let noneMatch := req.ifNoneMatch
  if !truthy modifiedSince && !truthy noneMatch then false
  else if truthy req.cacheControl && noCacheTest (req.cacheControl.getD "") then false
  else if truthy noneMatch && !(noneMatch.getD "" == "*") then
    if (noneMatch.getD "").data.isEmpty then false
    else if resEtag.data.isEmpty then false
    else if (parseTokenList (noneMatch.getD "")).any
        (fun m => m == resEtag || m == "W/" ++ resEtag || "W/" ++ m == resEtag) then
      if truthy modifiedSince then false else true
    else false
  else
    if truthy modifiedSince then false else true

/-! ## The route handler's decision logic -/

/-- Embedding of `startsWith` on character lists (JS `String.prototype.startsWith`). -/
def startsWithL : List Char → List Char → Bool
  | _, [] => true
  | [], _ :: _ => false
  | c :: cs, p :: ps => c == p && startsWithL cs ps

/-- JS `s.startsWith(p)`. -/
def jsStartsWith (s p : String) : Bool := startsWithL s.data p.data

/-- Embedding of `supportsRangeRequests` (src/server.js lines 152-158). -/
def supportsRangeRequests (mimeType : String) : Bool :=
  jsStartsWith mimeType "video/" ||
  jsStartsWith mimeType "audio/" ||
  mimeType == "application/pdf" ||
  jsStartsWith mimeType "image/"

/-- The five observable outcomes of the handler: 304 early return, the
plain full-file stream, the `ranges === -2` full-file fallback, the 206
partial stream, and the `ranges === -1` 416 return. -/
inductive Decision where
  | notModified
  | fullContent
  | malformedFallback
  | partialContent (start «end» : Nat)
  | rangeNotSatisfiable
deriving DecidableEq, Repr

/-- Status code, headers in the order they are set, and which branch ran. -/
structure HttpResponse where
  status : Nat
  headers : List (String × String)
  decision : Decision
deriving DecidableEq, Repr

/-- The `Cache-Control` tier chosen by content-type (lines 492-499). -/
def cacheControlValue (mimeType : String) : String :=
  if jsStartsWith mimeType "video/" || jsStartsWith mimeType "audio/" then
    "public, max-age=2592000, immutable"
  else if jsStartsWith mimeType "image/" then
    "public, max-age=604800, immutable"
  else
    "public, max-age=86400, immutable"

/-- Headers set unconditionally before any branching (lines 487-504):
`ETag`, `Content-Type`, `Content-Disposition`, `Cache-Control`, and
`Accept-Ranges: bytes` only when the resource supports ranges. -/
def baseHeaders (mimeType fileETag originalName : String) : List (String × String) :=
  [("ETag", fileETag),
   ("Content-Type", mimeType),
   ("Content-Disposition", "inline; filename=\"" ++ originalName ++ "\""),
   ("Cache-Control", cacheControlValue mimeType)] ++
  (if supportsRangeRequests mimeType then [("Accept-Ranges", "bytes")] else [])

/-- The decision logic of `app.get('/:storedName')` (lines 480-562), after
the 404 checks: freshness first, then `if (range && supportsRanges)` with
the three `rangeParser` outcomes, else the full-file branch.  `size` is
`stats.size`, `fileETag` is `etag(stats)`, `mimeType` is
`getOptimizedMimeType(file.originalName)`. -/
def serveFile (size : Nat) (mimeType fileETag originalName : String)
    (req : ReqHeaders) : HttpResponse :=
  let supportsRanges := supportsRangeRequests mimeType
  let hdrs := baseHeaders mimeType fileETag originalName
  if fresh req fileETag then
    ⟨304, hdrs, .notModified⟩
  else if truthy req.range && supportsRanges then
    match rangeParser size (req.range.getD "").data true with
    | .unsatisfiable =>
      ⟨416, hdrs ++ [("Content-Range", "bytes */" ++ toString size)],
       .rangeNotSatisfiable⟩
    | .malformed =>
      ⟨200, hdrs ++ [("Content-Length", toString size)], .malformedFallback⟩
    | .ranges rs =>
      let r := rs.headD ⟨0, 0⟩
      let chunkSize := r.«end» - r.start + 1
      ⟨206,
       hdrs ++ [("Content-Range",
                 "bytes " ++ toString r.start ++ "-" ++ toString r.«end» ++
                 "/" ++ toString size),
                ("Content-Length", toString chunkSize)],
       .partialContent r.start r.«end»⟩
  else
    ⟨200, hdrs ++ [("Content-Length", toString size)], .fullContent⟩

/-! ## Helper lemmas about the embedded string functions -/

theorem jsWhitespace_eq_false_of_isDigit {c : Char} (h : c.isDigit = true) :
    jsWhitespace c = false := by
  rcases Bool.eq_false_or_eq_true (jsWhitespace c) with hw | hw
  swap
  · exact hw
  · exfalso
    unfold jsWhitespace at hw
    simp only [Bool.or_eq_true, beq_iff_eq] at hw
    rcases hw with ((((((rfl | rfl) | rfl) | rfl) | rfl) | rfl) | rfl) <;>
      exact absurd h (by decide)

theorem ne_dash_of_isDigit {c : Char} (h : c.isDigit = true) : c ≠ '-' := by
  intro rfl_h
  subst rfl_h
  exact absurd h (by decide)

theorem ne_plus_of_isDigit {c : Char} (h : c.isDigit = true) : c ≠ '+' := by
  intro rfl_h
  subst rfl_h
  exact absurd h (by decide)

theorem takeDigits_of_all {cs : List Char} (h : ∀ c ∈ cs, c.isDigit = true) :
    takeDigits cs = cs := by
  induction cs with
  | nil => rfl
  | cons c rest ih =>
    simp [takeDigits, h c (List.mem_cons_self _ _),
      ih fun x hx => h x (List.mem_cons_of_mem _ hx)]

theorem jsParseIntL_nil : jsParseIntL [] = none := rfl

theorem jsParseIntL_digits {cs : List Char} (h0 : cs ≠ [])
    (h1 : ∀ c ∈ cs, c.isDigit = true) :
    jsParseIntL cs = some ((digitsToNat cs : Nat) : Int) := by
  obtain ⟨c, rest, rfl⟩ := List.exists_cons_of_ne_nil h0
  have hc := h1 c (List.mem_cons_self _ _)
  have hdw : (c :: rest).dropWhile jsWhitespace = c :: rest := by
    simp [List.dropWhile_cons, jsWhitespace_eq_false_of_isDigit hc]
  have htd : takeDigits (c :: rest) = c :: rest := takeDigits_of_all h1
  rw [jsParseIntL, hdw]
  simp [ne_dash_of_isDigit hc, ne_plus_of_isDigit hc, htd]

theorem splitOnChar_of_not_mem {sep : Char} {cs : List Char} (h : sep ∉ cs) :
    splitOnChar sep cs = [cs] := by
  induction cs with
  | nil => rfl
  | cons c rest ih =>
    have hc : ¬ c = sep := fun e => h (e ▸ List.mem_cons_self _ _)
    have hr : sep ∉ rest := fun m => h (List.mem_cons_of_mem _ m)
    simp [splitOnChar, hc, ih hr]

theorem splitOnChar_append_sep {sep : Char} {xs ys : List Char} (h : sep ∉ xs) :
    splitOnChar sep (xs ++ sep :: ys) = xs :: splitOnChar sep ys := by
  induction xs with
  | nil => simp [splitOnChar]
  | cons c rest ih =>
    have hc : ¬ c = sep := fun e => h (e ▸ List.mem_cons_self _ _)
    have hr : sep ∉ rest := fun m => h (List.mem_cons_of_mem _ m)
    simp [splitOnChar, hc, ih hr]

theorem not_dash_mem_of_digits {cs : List Char} (h : ∀ c ∈ cs, c.isDigit = true) :
    '-' ∉ cs := fun m => absurd (h _ m) (by decide)

theorem not_comma_mem_of_digits {cs : List Char} (h : ∀ c ∈ cs, c.isDigit = true) :
    ',' ∉ cs := fun m => absurd (h _ m) (by decide)

/-! ## Computation lemmas for parseOneRange and rangeParser -/

theorem parseOneRange_pair (size : Int) {sa sb : List Char} {a b : Nat}
    (ha0 : sa ≠ []) (ha1 : ∀ c ∈ sa, c.isDigit = true) (ha2 : digitsToNat sa = a)
    (hb0 : sb ≠ []) (hb1 : ∀ c ∈ sb, c.isDigit = true) (hb2 : digitsToNat sb = b) :
    parseOneRange size (sa ++ '-' :: sb) =
      if min (size - 1) (b : Int) < (a : Int) ∨ (a : Int) < 0 then none
      else some ((a : Int), min (size - 1) (b : Int)) := by
  have hsplit : splitOnChar '-' (sa ++ '-' :: sb) = sa :: splitOnChar '-' sb :=
    splitOnChar_append_sep (not_dash_mem_of_digits ha1)
  have hsb : splitOnChar '-' sb = [sb] :=
    splitOnChar_of_not_mem (not_dash_mem_of_digits hb1)
  rw [parseOneRange, hsplit, hsb]
  simp only [List.headD_cons]
  rw [jsParseIntL_digits ha0 ha1, jsParseIntL_digits hb0 hb1, ha2, hb2]
  have hmin : (if size - 1 < (b : Int) then size - 1 else (b : Int)) =
      min (size - 1) (b : Int) := by
    rcases lt_or_le (size - 1) (b : Int) with h | h
    · rw [if_pos h, min_eq_left (le_of_lt h)]
    · rw [if_neg (not_lt.mpr h), min_eq_right h]
  simp only [hmin]

theorem parseOneRange_open (size : Int) {sa : List Char} {a : Nat}
    (ha0 : sa ≠ []) (ha1 : ∀ c ∈ sa, c.isDigit = true) (ha2 : digitsToNat sa = a) :
    parseOneRange size (sa ++ ['-']) =
      if size - 1 < (a : Int) ∨ (a : Int) < 0 then none
      else some ((a : Int), size - 1) := by
  have hsplit : splitOnChar '-' (sa ++ '-' :: ([] : List Char)) =
      sa :: splitOnChar '-' [] :=
    splitOnChar_append_sep (not_dash_mem_of_digits ha1)
  rw [parseOneRange, hsplit]
  simp only [List.headD_cons, splitOnChar]
  rw [jsParseIntL_digits ha0 ha1, ha2]
  simp [jsParseIntL_nil]

theorem parseOneRange_suffix (size : Int) {sN : List Char} {N : Nat}
    (h0 : sN ≠ []) (h1 : ∀ c ∈ sN, c.isDigit = true) (h2 : digitsToNat sN = N) :
    parseOneRange size ('-' :: sN) =
      if size - 1 < size - (N : Int) ∨ size - (N : Int) < 0 then none
      else some (size - (N : Int), size - 1) := by
  have hsplit : splitOnChar '-' (([] : List Char) ++ '-' :: sN) =
      [] :: splitOnChar '-' sN :=
    splitOnChar_append_sep (by simp)
  have hsN : splitOnChar '-' sN = [sN] :=
    splitOnChar_of_not_mem (not_dash_mem_of_digits h1)
  rw [show ('-' :: sN) = ([] : List Char) ++ '-' :: sN from rfl, parseOneRange,
    hsplit, hsN]
  simp only [List.headD_cons, jsParseIntL_nil]
  rw [jsParseIntL_digits h0 h1, h2]
  simp

theorem combineRanges_singleton (x : IRange) : combineRanges [x] = [x] := rfl

theorem rangeParser_single (size : Nat) {spec : List Char} (h : ',' ∉ spec) :
    rangeParser size ('b' :: 'y' :: 't' :: 'e' :: 's' :: '=' :: spec) true =
      (match parseOneRange (size : Int) spec with
       | none => RangeResult.unsatisfiable
       | some (st, en) => RangeResult.ranges [⟨st.toNat, en.toNat⟩]) := by
  have hae : afterFirstEq ('b' :: 'y' :: 't' :: 'e' :: 's' :: '=' :: spec) =
      some spec := rfl
  rw [rangeParser, hae]
  simp only [splitOnChar_of_not_mem h]
  cases hp : parseOneRange (size : Int) spec with
  | none => simp [List.filterMap, hp]
  | some p =>
    obtain ⟨st, en⟩ := p
    simp [List.filterMap, hp, withIdx, combineRanges_singleton]

/-! ## Branch lemmas for serveFile -/

theorem isEmpty_eq_false_of_ne_nil {l : List Char} (h : l ≠ []) :
    l.isEmpty = false := by
  cases l with
  | nil => exact absurd rfl h
  | cons a t => rfl

theorem serveFile_of_fresh {size : Nat} {mt tg nm : String} {req : ReqHeaders}
    (hfresh : fresh req tg = true) :
    serveFile size mt tg nm req = ⟨304, baseHeaders mt tg nm, .notModified⟩ := by
  rw [serveFile]
  simp only [hfresh, if_true]

theorem serveFile_of_ranges {size : Nat} {mt tg nm hdrS : String}
    {inm ims cc : Option String}
    (hfresh : fresh ⟨some hdrS, inm, ims, cc⟩ tg = false)
    (hne : hdrS.data ≠ [])
    (hsup : supportsRangeRequests mt = true)
    {rs : List ByteRange} (hp : rangeParser size hdrS.data true = .ranges rs) :
    serveFile size mt tg nm ⟨some hdrS, inm, ims, cc⟩ =
      ⟨206,
       baseHeaders mt tg nm ++
         [("Content-Range",
           "bytes " ++ toString (rs.headD ⟨0, 0⟩).start ++ "-" ++
           toString (rs.headD ⟨0, 0⟩).«end» ++ "/" ++ toString size),
          ("Content-Length",
           toString ((rs.headD ⟨0, 0⟩).«end» - (rs.headD ⟨0, 0⟩).start + 1))],
       .partialContent (rs.headD ⟨0, 0⟩).start (rs.headD ⟨0, 0⟩).«end»⟩ := by
  rw [serveFile]
  simp only [hfresh, Bool.false_eq_true, if_false, truthy,
    isEmpty_eq_false_of_ne_nil hne, Bool.not_false, hsup, Bool.and_self,
    if_true, Option.getD_some, hp]

theorem serveFile_of_unsat {size : Nat} {mt tg nm hdrS : String}
    {inm ims cc : Option String}
    (hfresh : fresh ⟨some hdrS, inm, ims, cc⟩ tg = false)
    (hne : hdrS.data ≠ [])
    (hsup : supportsRangeRequests mt = true)
    (hp : rangeParser size hdrS.data true = .unsatisfiable) :
    serveFile size mt tg nm ⟨some hdrS, inm, ims, cc⟩ =
      ⟨416, baseHeaders mt tg nm ++ [("Content-Range", "bytes */" ++ toString size)],
       .rangeNotSatisfiable⟩ := by
  rw [serveFile]
  simp only [hfresh, Bool.false_eq_true, if_false, truthy,
    isEmpty_eq_false_of_ne_nil hne, Bool.not_false, hsup, Bool.and_self,
    if_true, Option.getD_some, hp]

theorem serveFile_of_malformed {size : Nat} {mt tg nm hdrS : String}
    {inm ims cc : Option String}
    (hfresh : fresh ⟨some hdrS, inm, ims, cc⟩ tg = false)
    (hne : hdrS.data ≠ [])
    (hsup : supportsRangeRequests mt = true)
    (hp : rangeParser size hdrS.data true = .malformed) :
    serveFile size mt tg nm ⟨some hdrS, inm, ims, cc⟩ =
      ⟨200, baseHeaders mt tg nm ++ [("Content-Length", toString size)],
       .malformedFallback⟩ := by
  rw [serveFile]
  simp only [hfresh, Bool.false_eq_true, if_false, truthy,
    isEmpty_eq_false_of_ne_nil hne, Bool.not_false, hsup, Bool.and_self,
    if_true, Option.getD_some, hp]

theorem serveFile_of_unsupported {size : Nat} {mt tg nm : String}
    {req : ReqHeaders}
    (hfresh : fresh req tg = false)
    (hsup : supportsRangeRequests mt = false) :
    serveFile size mt tg nm req =
      ⟨200, baseHeaders mt tg nm ++ [("Content-Length", toString size)],
       .fullContent⟩ := by
  rw [serveFile]
  simp only [hfresh, Bool.false_eq_true, if_false, hsup, Bool.and_false,
    if_false]

theorem comma_not_mem_pair {sa sb : List Char}
    (ha1 : ∀ c ∈ sa, c.isDigit = true) (hb1 : ∀ c ∈ sb, c.isDigit = true) :
    ',' ∉ (sa ++ '-' :: sb) := by
  intro hm
  rcases List.mem_append.mp hm with h | h
  · exact not_comma_mem_of_digits ha1 h
  · rcases List.mem_cons.mp h with h | h
    · exact absurd h (by decide)
    · exact not_comma_mem_of_digits hb1 h

/-! ## Claims -/

/-- C1: for every resource with totalSize > 0 and every syntactically valid
range header `bytes=a-b` with 0 ≤ a ≤ b < totalSize (ranges supported, no
fresh-cache short-circuit), the handler decides PartialContent with window
{a, b}, status 206, header `Content-Range: bytes a-b/totalSize`, and header
`Content-Length = b-a+1`.  The header is quantified over all decimal
representations of a and b (`sa`, `sb`). -/
theorem C1_valid_bounded_range (size a b : Nat) (mt tg nm hdrS : String)
    (inm ims cc : Option String) (sa sb : List Char)
    (ha0 : sa ≠ []) (ha1 : ∀ c ∈ sa, c.isDigit = true) (ha2 : digitsToNat sa = a)
    (hb0 : sb ≠ []) (hb1 : ∀ c ∈ sb, c.isDigit = true) (hb2 : digitsToNat sb = b)
    (hab : a ≤ b) (hbs : b < size)
    (hhdr : hdrS.data = 'b' :: 'y' :: 't' :: 'e' :: 's' :: '=' :: (sa ++ '-' :: sb))
    (hsup : supportsRangeRequests mt = true)
    (hfresh : fresh ⟨some hdrS, inm, ims, cc⟩ tg = false) :
    (serveFile size mt tg nm ⟨some hdrS, inm, ims, cc⟩).status = 206 ∧
    (serveFile size mt tg nm ⟨some hdrS, inm, ims, cc⟩).decision =
      .partialContent a b ∧
    ("Content-Range",
      "bytes " ++ toString a ++ "-" ++ toString b ++ "/" ++ toString size) ∈
      (serveFile size mt tg nm ⟨some hdrS, inm, ims, cc⟩).headers ∧
    ("Content-Length", toString (b - a + 1)) ∈
      (serveFile size mt tg nm ⟨some hdrS, inm, ims, cc⟩).headers := by
  have hp1 : parseOneRange (size : Int) (sa ++ '-' :: sb) =
      some ((a : Int), (b : Int)) := by
    rw [parseOneRange_pair (size : Int) ha0 ha1 ha2 hb0 hb1 hb2]
    have hmin : min ((size : Int) - 1) (b : Int) = (b : Int) := by
      apply min_eq_right; omega
    rw [hmin, if_neg]; omega
  have hp : rangeParser size hdrS.data true = .ranges [⟨a, b⟩] := by
    rw [hhdr, rangeParser_single size (comma_not_mem_pair ha1 hb1), hp1]
    simp
  rw [serveFile_of_ranges hfresh (by rw [hhdr]; simp) hsup hp]
  refine ⟨rfl, rfl, ?_, ?_⟩ <;> simp [List.headD]

/-- Witness for C1 at the spec's concrete scenario: totalSize 1000,
`Range: bytes=200-299` on a video resource gives 206,
`Content-Range: bytes 200-299/1000`, `Content-Length: 100`. -/
theorem C1_valid_bounded_range_witness :
    (serveFile 1000 "video/mp4" "W/\"abc\"" "movie.mp4"
        ⟨some "bytes=200-299", none, none, none⟩).status = 206 ∧
    (serveFile 1000 "video/mp4" "W/\"abc\"" "movie.mp4"
        ⟨some "bytes=200-299", none, none, none⟩).decision =
      .partialContent 200 299 ∧
    ("Content-Range",
      "bytes " ++ toString 200 ++ "-" ++ toString 299 ++ "/" ++ toString 1000) ∈
      (serveFile 1000 "video/mp4" "W/\"abc\"" "movie.mp4"
        ⟨some "bytes=200-299", none, none, none⟩).headers ∧
    ("Content-Length", toString (299 - 200 + 1)) ∈
      (serveFile 1000 "video/mp4" "W/\"abc\"" "movie.mp4"
        ⟨some "bytes=200-299", none, none, none⟩).headers :=
  C1_valid_bounded_range 1000 200 299 "video/mp4" "W/\"abc\"" "movie.mp4"
    "bytes=200-299" none none none ['2', '0', '0'] ['2', '9', '9']
    (by decide) (by decide) (by decide) (by decide) (by decide) (by decide)
    (by decide) (by decide) (by decide) (by decide) (by decide)

/-- C3: for every range request `bytes=a-b` whose start a satisfies
a ≥ totalSize, or which is inverted (b < a), the handler decides
RangeNotSatisfiable with status 416 and header
`Content-Range: bytes */totalSize` and streams no body window. -/
theorem C3_unsatisfiable_range (size a b : Nat) (mt tg nm hdrS : String)
    (inm ims cc : Option String) (sa sb : List Char)
    (ha0 : sa ≠ []) (ha1 : ∀ c ∈ sa, c.isDigit = true) (ha2 : digitsToNat sa = a)
    (hb0 : sb ≠ []) (hb1 : ∀ c ∈ sb, c.isDigit = true) (hb2 : digitsToNat sb = b)
    (hcond : size ≤ a ∨ b < a)
    (hhdr : hdrS.data = 'b' :: 'y' :: 't' :: 'e' :: 's' :: '=' :: (sa ++ '-' :: sb))
    (hsup : supportsRangeRequests mt = true)
    (hfresh : fresh ⟨some hdrS, inm, ims, cc⟩ tg = false) :
    (serveFile size mt tg nm ⟨some hdrS, inm, ims, cc⟩).status = 416 ∧
    (serveFile size mt tg nm ⟨some hdrS, inm, ims, cc⟩).decision =
      .rangeNotSatisfiable ∧
    ("Content-Range", "bytes */" ++ toString size) ∈
      (serveFile size mt tg nm ⟨some hdrS, inm, ims, cc⟩).headers := by
  have hp1 : parseOneRange (size : Int) (sa ++ '-' :: sb) = none := by
    rw [parseOneRange_pair (size : Int) ha0 ha1 ha2 hb0 hb1 hb2]
    have hC : min ((size : Int) - 1) (b : Int) < (a : Int) ∨ ((a : Int) < 0) := by
      rcases hcond with h | h
      · exact Or.inl (by have := min_le_left ((size : Int) - 1) (b : Int); omega)
      · exact Or.inl (by have := min_le_right ((size : Int) - 1) (b : Int); omega)
    rw [if_pos hC]
  have hp : rangeParser size hdrS.data true = .unsatisfiable := by
    rw [hhdr, rangeParser_single size (comma_not_mem_pair ha1 hb1), hp1]
  rw [serveFile_of_unsat hfresh (by rw [hhdr]; simp) hsup hp]
  exact ⟨rfl, rfl, by simp⟩

/-- Witness for C3 at the spec's concrete scenario: totalSize 1000,
`Range: bytes=1200-1300` gives 416 with `Content-Range: bytes */1000`. -/
theorem C3_unsatisfiable_range_witness :
    (serveFile 1000 "video/mp4" "W/\"abc\"" "movie.mp4"
        ⟨some "bytes=1200-1300", none, none, none⟩).status = 416 ∧
    (serveFile 1000 "video/mp4" "W/\"abc\"" "movie.mp4"
        ⟨some "bytes=1200-1300", none, none, none⟩).decision =
      .rangeNotSatisfiable ∧
    ("Content-Range", "bytes */" ++ toString 1000) ∈
      (serveFile 1000 "video/mp4" "W/\"abc\"" "movie.mp4"
        ⟨some "bytes=1200-1300", none, none, none⟩).headers :=
  C3_unsatisfiable_range 1000 1200 1300 "video/mp4" "W/\"abc\"" "movie.mp4"
    "bytes=1200-1300" none none none ['1', '2', '0', '0'] ['1', '3', '0', '0']
    (by decide) (by decide) (by decide) (by decide) (by decide) (by decide)
    (by decide) (by decide) (by decide) (by decide)

/-- C6 (corrected): the claim fails at N = 0 (`bytes=-0` is unsatisfiable,
served as 416, not as a window `totalSize..totalSize-1`); here is the claim
amended to 1 ≤ N ≤ totalSize: a suffix range `bytes=-N` (ranges supported,
no freshness short-circuit) serves the window
totalSize-N .. totalSize-1 with status 206. -/
theorem C6_suffix_range (size N : Nat) (mt tg nm hdrS : String)
    (inm ims cc : Option String) (sN : List Char)
    (h0 : sN ≠ []) (h1 : ∀ c ∈ sN, c.isDigit = true) (h2 : digitsToNat sN = N)
    (hN1 : 1 ≤ N) (hNs : N ≤ size)
    (hhdr : hdrS.data = 'b' :: 'y' :: 't' :: 'e' :: 's' :: '=' :: '-' :: sN)
    (hsup : supportsRangeRequests mt = true)
    (hfresh : fresh ⟨some hdrS, inm, ims, cc⟩ tg = false) :
    (serveFile size mt tg nm ⟨some hdrS, inm, ims, cc⟩).decision =
      .partialContent (size - N) (size - 1) ∧
    (serveFile size mt tg nm ⟨some hdrS, inm, ims, cc⟩).status = 206 := by
  have hp1 : parseOneRange (size : Int) ('-' :: sN) =
      some ((size : Int) - (N : Int), (size : Int) - 1) := by
    rw [parseOneRange_suffix (size : Int) h0 h1 h2, if_neg]
    omega
  have hcm : ',' ∉ ('-' :: sN) := by
    intro hm
    rcases List.mem_cons.mp hm with h | h
    · exact absurd h (by decide)
    · exact not_comma_mem_of_digits h1 h
  have hp : rangeParser size hdrS.data true = .ranges [⟨size - N, size - 1⟩] := by
    rw [hhdr, rangeParser_single size hcm, hp1]
    have e1 : ((size : Int) - (N : Int)).toNat = size - N := by omega
    have e2 : ((size : Int) - 1).toNat = size - 1 := by omega
    simp [e1, e2]
  rw [serveFile_of_ranges hfresh (by rw [hhdr]; simp) hsup hp]
  exact ⟨rfl, rfl⟩

/-- Witness for C6's amended theorem: `bytes=-500` against totalSize 1000
serves the window 500..999. -/
theorem C6_suffix_range_witness :
    (serveFile 1000 "video/mp4" "W/\"abc\"" "movie.mp4"
        ⟨some "bytes=-500", none, none, none⟩).decision =
      .partialContent (1000 - 500) (1000 - 1) ∧
    (serveFile 1000 "video/mp4" "W/\"abc\"" "movie.mp4"
        ⟨some "bytes=-500", none, none, none⟩).status = 206 :=
  C6_suffix_range 1000 500 "video/mp4" "W/\"abc\"" "movie.mp4" "bytes=-500"
    none none none ['5', '0', '0'] (by decide) (by decide) (by decide)
    (by decide) (by decide) (by decide) (by decide) (by decide)

/-- Counterexample to C6 as stated: N = 0 satisfies N ≤ totalSize and
`bytes=-0` is a syntactically valid suffix range, but the handler decides
RangeNotSatisfiable (416) — no byte window
`totalSize-0 .. totalSize-1` is served. -/
theorem C6_counterexample :
    (serveFile 1000 "video/mp4" "W/\"abc\"" "movie.mp4"
        ⟨some "bytes=-0", none, none, none⟩).status = 416 ∧
    (serveFile 1000 "video/mp4" "W/\"abc\"" "movie.mp4"
        ⟨some "bytes=-0", none, none, none⟩).decision =
      .rangeNotSatisfiable := by
  constructor <;> rfl

/-- C7: a range request with omitted end (`bytes=a-`) or with an end
exceeding totalSize-1 (with a < totalSize, ranges supported, no freshness
short-circuit) is clamped: the served window is a..totalSize-1. -/
theorem C7_end_clamped (size a : Nat) (mt tg nm hdrS : String)
    (inm ims cc : Option String) (sa sb : List Char)
    (ha0 : sa ≠ []) (ha1 : ∀ c ∈ sa, c.isDigit = true) (ha2 : digitsToNat sa = a)
    (has : a < size)
    (hend : sb = [] ∨
      (sb ≠ [] ∧ (∀ c ∈ sb, c.isDigit = true) ∧ size ≤ digitsToNat sb))
    (hhdr : hdrS.data = 'b' :: 'y' :: 't' :: 'e' :: 's' :: '=' :: (sa ++ '-' :: sb))
    (hsup : supportsRangeRequests mt = true)
    (hfresh : fresh ⟨some hdrS, inm, ims, cc⟩ tg = false) :
    (serveFile size mt tg nm ⟨some hdrS, inm, ims, cc⟩).decision =
      .partialContent a (size - 1) ∧
    (serveFile size mt tg nm ⟨some hdrS, inm, ims, cc⟩).status = 206 := by
  have hp1 : parseOneRange (size : Int) (sa ++ '-' :: sb) =
      some ((a : Int), (size : Int) - 1) := by
    rcases hend with rfl | ⟨hb0, hb1, hbs⟩
    · rw [parseOneRange_open (size : Int) ha0 ha1 ha2, if_neg]
      omega
    · rw [parseOneRange_pair (size : Int) ha0 ha1 ha2 hb0 hb1 rfl]
      have hmin : min ((size : Int) - 1) ((digitsToNat sb : Nat) : Int) =
          (size : Int) - 1 := by
        apply min_eq_left; omega
      rw [hmin, if_neg]
      omega
  have hcm : ',' ∉ (sa ++ '-' :: sb) := by
    rcases hend with rfl | ⟨hb0, hb1, hbs⟩
    · exact comma_not_mem_pair ha1 (by simp)
    · exact comma_not_mem_pair ha1 hb1
  have hp : rangeParser size hdrS.data true = .ranges [⟨a, size - 1⟩] := by
    rw [hhdr, rangeParser_single size hcm, hp1]
    have e2 : ((size : Int) - 1).toNat = size - 1 := by omega
    simp [e2]
  rw [serveFile_of_ranges hfresh (by rw [hhdr]; simp) hsup hp]
  exact ⟨rfl, rfl⟩

/-- Witness for C7: `bytes=200-` against totalSize 1000 serves 200..999,
and so does `bytes=200-5000`; the open-ended instance is used here. -/
theorem C7_end_clamped_witness :
    (serveFile 1000 "video/mp4" "W/\"abc\"" "movie.mp4"
        ⟨some "bytes=200-", none, none, none⟩).decision =
      .partialContent 200 (1000 - 1) ∧
    (serveFile 1000 "video/mp4" "W/\"abc\"" "movie.mp4"
        ⟨some "bytes=200-", none, none, none⟩).status = 206 :=
  C7_end_clamped 1000 200 "video/mp4" "W/\"abc\"" "movie.mp4" "bytes=200-"
    none none none ['2', '0', '0'] [] (by decide) (by decide) (by decide)
    (by decide) (Or.inl rfl) (by decide) (by decide) (by decide)

theorem dropWhile_eq_self_of_not {p : Char → Bool} {l : List Char}
    (h : ∀ c ∈ l, p c = false) : l.dropWhile p = l := by
  cases l with
  | nil => rfl
  | cons c t => simp [List.dropWhile_cons, h c (List.mem_cons_self _ _)]

theorem trimSpaces_of_not_mem {l : List Char} (h : ' ' ∉ l) : trimSpaces l = l := by
  have hp : ∀ c ∈ l, (c == ' ') = false := by
    intro c hc
    exact beq_eq_false_iff_ne.mpr (fun e => h (e ▸ hc))
  have hp' : ∀ c ∈ l.reverse, (c == ' ') = false := by
    intro c hc
    exact hp c (List.mem_reverse.mp hc)
  unfold trimSpaces
  rw [dropWhile_eq_self_of_not hp, dropWhile_eq_self_of_not hp', List.reverse_reverse]

theorem parseTokenList_single {tg : String} (h1 : tg.data ≠ [])
    (h2 : ',' ∉ tg.data) (h3 : ' ' ∉ tg.data) : parseTokenList tg = [tg] := by
  unfold parseTokenList
  rw [splitOnChar_of_not_mem h2]
  simp only [List.map_cons, List.map_nil, trimSpaces_of_not_mem h3]
  simp only [List.filterMap, isEmpty_eq_false_of_ne_nil h1, Bool.false_eq_true,
    if_false]

/-- When the request carries `if-none-match` equal to the validator (a
nonempty token without commas or spaces), no `if-modified-since` and no
`cache-control`, `fresh` reports the cache fresh — whatever the `range`
header is. -/
theorem fresh_of_ifNoneMatch_eq (tg : String) (rng : Option String)
    (htg1 : tg.data ≠ []) (htg2 : ',' ∉ tg.data) (htg3 : ' ' ∉ tg.data) :
    fresh ⟨rng, some tg, none, none⟩ tg = true := by
  unfold fresh
  simp only [truthy, isEmpty_eq_false_of_ne_nil htg1, Bool.not_false,
    Bool.not_true, Bool.false_and, Bool.and_false, Bool.true_and,
    Bool.false_eq_true, if_false, Option.getD_some]
  by_cases hstar : tg == "*"
  · simp [hstar]
  · simp only [hstar, Bool.not_false, Bool.and_true, if_true,
      isEmpty_eq_false_of_ne_nil htg1, Bool.false_eq_true, if_false,
      parseTokenList_single htg1 htg2 htg3]
    simp

/-- C2 (corrected): the claim fails when the request also carries an
`If-Modified-Since` header — the handler calls `fresh` with no
`last-modified` response header, so `fresh` reports stale and range/full
processing runs instead of the 304 short-circuit.  Amended claim: for every
request whose If-None-Match equals the resource's validator (a nonempty
token without commas or spaces) and which carries no If-Modified-Since and
no Cache-Control header, the decision is NotModified with status 304,
regardless of any Range header present. -/
theorem C2_if_none_match_dominates (size : Nat) (mt tg nm : String)
    (rng : Option String)
    (htg1 : tg.data ≠ []) (htg2 : ',' ∉ tg.data) (htg3 : ' ' ∉ tg.data) :
    (serveFile size mt tg nm ⟨rng, some tg, none, none⟩).status = 304 ∧
    (serveFile size mt tg nm ⟨rng, some tg, none, none⟩).decision =
      .notModified := by
  rw [serveFile_of_fresh (fresh_of_ifNoneMatch_eq tg rng htg1 htg2 htg3)]
  exact ⟨rfl, rfl⟩

/-- Witness for C2's amended theorem: matching If-None-Match with a
concurrently valid Range header still yields 304. -/
theorem C2_if_none_match_dominates_witness :
    (serveFile 1000 "video/mp4" "W/\"abc\"" "movie.mp4"
        ⟨some "bytes=200-299", some "W/\"abc\"", none, none⟩).status = 304 ∧
    (serveFile 1000 "video/mp4" "W/\"abc\"" "movie.mp4"
        ⟨some "bytes=200-299", some "W/\"abc\"", none, none⟩).decision =
      .notModified :=
  C2_if_none_match_dominates 1000 "video/mp4" "W/\"abc\"" "movie.mp4"
    (some "bytes=200-299") (by decide) (by decide) (by decide)

/-- Counterexample to C2 as stated: If-None-Match equals the validator,
but an If-Modified-Since header is also present; the handler passes no
`last-modified` to `fresh`, which therefore reports stale, and the request
is served with 200 instead of 304. -/
theorem C2_counterexample :
    (serveFile 1000 "video/mp4" "W/\"abc\"" "movie.mp4"
        ⟨none, some "W/\"abc\"", some "Sat, 01 Jan 2022 00:00:00 GMT",
         none⟩).status = 200 ∧
    (serveFile 1000 "video/mp4" "W/\"abc\"" "movie.mp4"
        ⟨none, some "W/\"abc\"", some "Sat, 01 Jan 2022 00:00:00 GMT",
         none⟩).decision = .fullContent := by
  constructor <;> rfl

/-- C4: for a resource whose content type is not range-supporting, any
Range header is ignored: the decision is FullContent (status 200,
`Content-Length = totalSize`) or NotModified (304), and
`Accept-Ranges: bytes` is never among the response headers. -/
theorem C4_no_range_support (size : Nat) (mt tg nm : String) (req : ReqHeaders)
    (hsup : supportsRangeRequests mt = false) :
    (((serveFile size mt tg nm req).status = 200 ∧
      (serveFile size mt tg nm req).decision = .fullContent ∧
      ("Content-Length", toString size) ∈ (serveFile size mt tg nm req).headers) ∨
     ((serveFile size mt tg nm req).status = 304 ∧
      (serveFile size mt tg nm req).decision = .notModified)) ∧
    ∀ v, ("Accept-Ranges", v) ∉ (serveFile size mt tg nm req).headers := by
  have hAR : ∀ v, ("Accept-Ranges", v) ∉ baseHeaders mt tg nm := by
    intro v hm
    unfold baseHeaders at hm
    rw [hsup] at hm
    simp only [Bool.false_eq_true, if_false, List.append_nil, List.mem_cons,
      List.not_mem_nil, or_false, Prod.mk.injEq] at hm
    rcases hm with ⟨h, _⟩ | ⟨h, _⟩ | ⟨h, _⟩ | ⟨h, _⟩ <;> exact absurd h (by decide)
  cases hfr : fresh req tg with
  | true =>
    rw [serveFile_of_fresh hfr]
    exact ⟨Or.inr ⟨rfl, rfl⟩, fun v hm => hAR v hm⟩
  | false =>
    rw [serveFile_of_unsupported hfr hsup]
    refine ⟨Or.inl ⟨rfl, rfl, by simp⟩, ?_⟩
    intro v hm
    rcases List.mem_append.mp hm with hm | hm
    · exact hAR v hm
    · rcases List.mem_cons.mp hm with hm | hm
      · have h1 : "Accept-Ranges" = "Content-Length" := congrArg Prod.fst hm
        exact absurd h1 (by decide)
      · exact absurd hm (List.not_mem_nil _)

/-- Witness for C4: a text resource with a syntactically valid Range header
is served whole with 200 and without `Accept-Ranges`. -/
theorem C4_no_range_support_witness :
    (((serveFile 1000 "text/plain" "W/\"abc\"" "notes.txt"
        ⟨some "bytes=200-299", none, none, none⟩).status = 200 ∧
      (serveFile 1000 "text/plain" "W/\"abc\"" "notes.txt"
        ⟨some "bytes=200-299", none, none, none⟩).decision = .fullContent ∧
      ("Content-Length", toString 1000) ∈
        (serveFile 1000 "text/plain" "W/\"abc\"" "notes.txt"
          ⟨some "bytes=200-299", none, none, none⟩).headers) ∨
     ((serveFile 1000 "text/plain" "W/\"abc\"" "notes.txt"
        ⟨some "bytes=200-299", none, none, none⟩).status = 304 ∧
      (serveFile 1000 "text/plain" "W/\"abc\"" "notes.txt"
        ⟨some "bytes=200-299", none, none, none⟩).decision = .notModified)) ∧
    ∀ v, ("Accept-Ranges", v) ∉
      (serveFile 1000 "text/plain" "W/\"abc\"" "notes.txt"
        ⟨some "bytes=200-299", none, none, none⟩).headers :=
  C4_no_range_support 1000 "text/plain" "W/\"abc\"" "notes.txt"
    ⟨some "bytes=200-299", none, none, none⟩ (by decide)

/-- C5 (corrected): the claim as stated fails on headers that contain no
`'='` at all (range-parser returns -2 and the handler serves the full file
with 200 rather than 416).  Amended claim: while ranges are supported and
freshness did not short-circuit, a Range header that parses as a range-spec
(`'='` present) but yields no satisfiable range is answered 416
RangeNotSatisfiable; a Range header with no `'='` at all falls back to
serving the full file with 200. -/
theorem C5_parse_failure (size : Nat) (mt tg nm hdrS : String)
    (inm ims cc : Option String)
    (hsup : supportsRangeRequests mt = true)
    (hne : hdrS.data ≠ [])
    (hfresh : fresh ⟨some hdrS, inm, ims, cc⟩ tg = false) :
    (rangeParser size hdrS.data true = .unsatisfiable →
      (serveFile size mt tg nm ⟨some hdrS, inm, ims, cc⟩).status = 416 ∧
      (serveFile size mt tg nm ⟨some hdrS, inm, ims, cc⟩).decision =
        .rangeNotSatisfiable) ∧
    (afterFirstEq hdrS.data = none →
      (serveFile size mt tg nm ⟨some hdrS, inm, ims, cc⟩).status = 200 ∧
      (serveFile size mt tg nm ⟨some hdrS, inm, ims, cc⟩).decision =
        .malformedFallback) := by
  constructor
  · intro hp
    rw [serveFile_of_unsat hfresh hne hsup hp]
    exact ⟨rfl, rfl⟩
  · intro hae
    have hp : rangeParser size hdrS.data true = .malformed := by
      rw [rangeParser, hae]
    rw [serveFile_of_malformed hfresh hne hsup hp]
    exact ⟨rfl, rfl⟩

/-- Witness for C5's amended theorem: `bytes=xyz` has an `'='` but no
satisfiable range, and is answered 416. -/
theorem C5_parse_failure_witness :
    (serveFile 1000 "video/mp4" "W/\"abc\"" "movie.mp4"
        ⟨some "bytes=xyz", none, none, none⟩).status = 416 ∧
    (serveFile 1000 "video/mp4" "W/\"abc\"" "movie.mp4"
        ⟨some "bytes=xyz", none, none, none⟩).decision =
      .rangeNotSatisfiable :=
  (C5_parse_failure 1000 "video/mp4" "W/\"abc\"" "movie.mp4" "bytes=xyz"
    none none none (by decide) (by decide) (by decide)).1 (by rfl)

/-- Counterexample to C5 as stated: the header `bytes` fails to parse at
all as a byte-range-spec (it has no `'='`), yet the handler serves the full
file with status 200 — not RangeNotSatisfiable. -/
theorem C5_counterexample :
    (serveFile 1000 "video/mp4" "W/\"abc\"" "movie.mp4"
        ⟨some "bytes", none, none, none⟩).status = 200 ∧
    (serveFile 1000 "video/mp4" "W/\"abc\"" "movie.mp4"
        ⟨some "bytes", none, none, none⟩).decision = .malformedFallback := by
  constructor <;> rfl

/-- C9: the handler's decision logic is a pure function of the descriptor
fields and request headers: two invocations on identical inputs produce
identical status, headers and decision. -/
theorem C9_deterministic (size : Nat) (mt tg nm : String) (req : ReqHeaders)
    (r1 r2 : HttpResponse)
    (h1 : r1 = serveFile size mt tg nm req)
    (h2 : r2 = serveFile size mt tg nm req) :
    r1.status = r2.status ∧ r1.headers = r2.headers ∧
    r1.decision = r2.decision := by
  subst h1
  subst h2
  exact ⟨rfl, rfl, rfl⟩

/-- Witness for C9 at a concrete input. -/
theorem C9_deterministic_witness :
    (serveFile 1000 "video/mp4" "W/\"abc\"" "movie.mp4"
        ⟨some "bytes=200-299", none, none, none⟩).status =
      (serveFile 1000 "video/mp4" "W/\"abc\"" "movie.mp4"
        ⟨some "bytes=200-299", none, none, none⟩).status ∧
    (serveFile 1000 "video/mp4" "W/\"abc\"" "movie.mp4"
        ⟨some "bytes=200-299", none, none, none⟩).headers =
      (serveFile 1000 "video/mp4" "W/\"abc\"" "movie.mp4"
        ⟨some "bytes=200-299", none, none, none⟩).headers ∧
    (serveFile 1000 "video/mp4" "W/\"abc\"" "movie.mp4"
        ⟨some "bytes=200-299", none, none, none⟩).decision =
      (serveFile 1000 "video/mp4" "W/\"abc\"" "movie.mp4"
        ⟨some "bytes=200-299", none, none, none⟩).decision :=
  C9_deterministic 1000 "video/mp4" "W/\"abc\"" "movie.mp4"
    ⟨some "bytes=200-299", none, none, none⟩ _ _ rfl rfl

theorem combineRanges_disjoint_pair {x y : IRange}
    (h1 : ¬ y.start < x.start) (h2 : x.«end» + 1 < y.start)
    (h3 : ¬ y.index < x.index) :
    combineRanges [x, y] = [x, y] := by
  simp [combineRanges, isortBy, insertByLt, mergeStep, h1, h2, h3]

theorem rangeParser_double (size : Nat) {s1 s2 : List Char}
    (h1 : ',' ∉ s1) (h2 : ',' ∉ s2) {a b c d : Nat}
    (hp1 : parseOneRange (size : Int) s1 = some ((a : Int), (b : Int)))
    (hp2 : parseOneRange (size : Int) s2 = some ((c : Int), (d : Int)))
    (hac : ¬ (c : Int) < (a : Int)) (hdisj : (b : Int) + 1 < (c : Int)) :
    rangeParser size
        ('b' :: 'y' :: 't' :: 'e' :: 's' :: '=' :: (s1 ++ ',' :: s2)) true =
      .ranges [⟨a, b⟩, ⟨c, d⟩] := by
  have hae : afterFirstEq
      ('b' :: 'y' :: 't' :: 'e' :: 's' :: '=' :: (s1 ++ ',' :: s2)) =
      some (s1 ++ ',' :: s2) := rfl
  rw [rangeParser, hae]
  simp only [splitOnChar_append_sep h1, splitOnChar_of_not_mem h2,
    List.filterMap_cons, hp1, hp2, List.filterMap_nil]
  have hcomb : combineRanges [⟨(a : Int), (b : Int), 0⟩, ⟨(c : Int), (d : Int), 1⟩] =
      [⟨(a : Int), (b : Int), 0⟩, ⟨(c : Int), (d : Int), 1⟩] :=
    combineRanges_disjoint_pair hac hdisj (by simp)
  simp [withIdx, hcomb]

/-- C10 (implicit): when a Range header carries two comma-separated ranges
that remain disjoint and non-adjacent after coalescing, the handler serves
only the first window: status 206 with Content-Range and Content-Length
computed from that window alone; the second window is dropped. -/
theorem C10_first_window_only (size a b c d : Nat) (mt tg nm hdrS : String)
    (inm ims cc : Option String) (sa sb sc sd : List Char)
    (ha0 : sa ≠ []) (ha1 : ∀ ch ∈ sa, ch.isDigit = true) (ha2 : digitsToNat sa = a)
    (hb0 : sb ≠ []) (hb1 : ∀ ch ∈ sb, ch.isDigit = true) (hb2 : digitsToNat sb = b)
    (hc0 : sc ≠ []) (hc1 : ∀ ch ∈ sc, ch.isDigit = true) (hc2 : digitsToNat sc = c)
    (hd0 : sd ≠ []) (hd1 : ∀ ch ∈ sd, ch.isDigit = true) (hd2 : digitsToNat sd = d)
    (hab : a ≤ b) (hbc : b + 1 < c) (hcd : c ≤ d) (hds : d < size)
    (hhdr : hdrS.data = 'b' :: 'y' :: 't' :: 'e' :: 's' :: '=' ::
      ((sa ++ '-' :: sb) ++ ',' :: (sc ++ '-' :: sd)))
    (hsup : supportsRangeRequests mt = true)
    (hfresh : fresh ⟨some hdrS, inm, ims, cc⟩ tg = false) :
    (serveFile size mt tg nm ⟨some hdrS, inm, ims, cc⟩).status = 206 ∧
    (serveFile size mt tg nm ⟨some hdrS, inm, ims, cc⟩).decision =
      .partialContent a b ∧
    ("Content-Range",
      "bytes " ++ toString a ++ "-" ++ toString b ++ "/" ++ toString size) ∈
      (serveFile size mt tg nm ⟨some hdrS, inm, ims, cc⟩).headers ∧
    ("Content-Length", toString (b - a + 1)) ∈
      (serveFile size mt tg nm ⟨some hdrS, inm, ims, cc⟩).headers := by
  have hp1 : parseOneRange (size : Int) (sa ++ '-' :: sb) =
      some ((a : Int), (b : Int)) := by
    rw [parseOneRange_pair (size : Int) ha0 ha1 ha2 hb0 hb1 hb2]
    have hmin : min ((size : Int) - 1) (b : Int) = (b : Int) := by
      apply min_eq_right; omega
    rw [hmin, if_neg]; omega
  have hp2 : parseOneRange (size : Int) (sc ++ '-' :: sd) =
      some ((c : Int), (d : Int)) := by
    rw [parseOneRange_pair (size : Int) hc0 hc1 hc2 hd0 hd1 hd2]
    have hmin : min ((size : Int) - 1) (d : Int) = (d : Int) := by
      apply min_eq_right; omega
    rw [hmin, if_neg]; omega
  have hp : rangeParser size hdrS.data true = .ranges [⟨a, b⟩, ⟨c, d⟩] := by
    rw [hhdr]
    exact rangeParser_double size (comma_not_mem_pair ha1 hb1)
      (comma_not_mem_pair hc1 hd1) hp1 hp2 (by omega) (by omega)
  rw [serveFile_of_ranges hfresh (by rw [hhdr]; simp) hsup hp]
  refine ⟨rfl, rfl, ?_, ?_⟩ <;> simp [List.headD]

/-- Witness for C10: `bytes=0-99,200-299` against totalSize 1000 is served
as 206 for the window 0..99 only. -/
theorem C10_first_window_only_witness :
    (serveFile 1000 "video/mp4" "W/\"abc\"" "movie.mp4"
        ⟨some "bytes=0-99,200-299", none, none, none⟩).status = 206 ∧
    (serveFile 1000 "video/mp4" "W/\"abc\"" "movie.mp4"
        ⟨some "bytes=0-99,200-299", none, none, none⟩).decision =
      .partialContent 0 99 ∧
    ("Content-Range",
      "bytes " ++ toString 0 ++ "-" ++ toString 99 ++ "/" ++ toString 1000) ∈
      (serveFile 1000 "video/mp4" "W/\"abc\"" "movie.mp4"
        ⟨some "bytes=0-99,200-299", none, none, none⟩).headers ∧
    ("Content-Length", toString (99 - 0 + 1)) ∈
      (serveFile 1000 "video/mp4" "W/\"abc\"" "movie.mp4"
        ⟨some "bytes=0-99,200-299", none, none, none⟩).headers :=
  C10_first_window_only 1000 0 99 200 299 "video/mp4" "W/\"abc\"" "movie.mp4"
    "bytes=0-99,200-299" none none none ['0'] ['9', '9'] ['2', '0', '0']
    ['2', '9', '9'] (by decide) (by decide) (by decide) (by decide) (by decide)
    (by decide) (by decide) (by decide) (by decide) (by decide) (by decide)
    (by decide) (by decide) (by decide) (by decide) (by decide) (by decide)
    (by decide) (by decide)

/-! ## The window invariant (C8) -/

theorem parseOneRange_sound {size : Int} {s : List Char} {st en : Int}
    (h : parseOneRange size s = some (st, en)) :
    0 ≤ st ∧ st ≤ en ∧ en ≤ size - 1 := by
  simp only [parseOneRange] at h
  split at h
  · exact absurd h (by simp)
  · rename_i st0 en0 heq
    clear heq
    split at h
    · split at h
      · exact absurd h (by simp)
      · rename_i hcl hcond
        rw [Option.some.injEq, Prod.mk.injEq] at h
        obtain ⟨rfl, rfl⟩ := h
        omega
    · split at h
      · exact absurd h (by simp)
      · rename_i hcl hcond
        rw [Option.some.injEq, Prod.mk.injEq] at h
        obtain ⟨rfl, rfl⟩ := h
        omega

/-- A well-formed parsed range: nonnegative, ordered, within the resource. -/
abbrev ROk (size : Int) (r : IRange) : Prop :=
  0 ≤ r.start ∧ r.start ≤ r.«end» ∧ r.«end» ≤ size - 1

theorem withIdx_ok {size : Int} :
    ∀ (l : List (Int × Int)) (i : Nat),
      (∀ p ∈ l, 0 ≤ p.1 ∧ p.1 ≤ p.2 ∧ p.2 ≤ size - 1) →
      ∀ r ∈ withIdx l i, ROk size r := by
  intro l
  induction l with
  | nil => intro i h r hr; simp [withIdx] at hr
  | cons p rest ih =>
    intro i h r hr
    obtain ⟨p1, p2⟩ := p
    simp only [withIdx, List.mem_cons] at hr
    rcases hr with rfl | hr
    · exact h (p1, p2) (List.mem_cons_self _ _)
    · exact ih (i + 1) (fun q hq => h q (List.mem_cons_of_mem _ hq)) r hr

theorem mem_insertByLt {lt : IRange → IRange → Bool} {x a : IRange} :
    ∀ {l : List IRange}, a ∈ insertByLt lt x l ↔ a = x ∨ a ∈ l := by
  intro l
  induction l with
  | nil => simp [insertByLt]
  | cons y ys ih =>
    simp only [insertByLt]
    split
    · rw [List.mem_cons, ih, List.mem_cons]
      tauto
    · exact List.mem_cons

theorem mem_isortBy {lt : IRange → IRange → Bool} {a : IRange} :
    ∀ {l : List IRange}, a ∈ isortBy lt l ↔ a ∈ l := by
  intro l
  induction l with
  | nil => simp [isortBy]
  | cons y ys ih => simp [isortBy, mem_insertByLt, ih]

theorem foldl_mergeStep_ok {size : Int} :
    ∀ (l : List IRange) (done : List IRange) (cur : IRange),
      (∀ r ∈ l, ROk size r) → (∀ r ∈ done, ROk size r) → ROk size cur →
      ∀ r ∈ (l.foldl mergeStep (done, cur)).2 :: (l.foldl mergeStep (done, cur)).1,
        ROk size r := by
  intro l
  induction l with
  | nil =>
    intro done cur hl hdone hcur r hr
    simp only [List.foldl_nil] at hr
    rcases List.mem_cons.mp hr with rfl | hr
    · exact hcur
    · exact hdone r hr
  | cons x xs ih =>
    intro done cur hl hdone hcur r hr
    rw [List.foldl_cons] at hr
    have hx : ROk size x := hl x (List.mem_cons_self _ _)
    have hxs : ∀ q ∈ xs, ROk size q := fun q hq => hl q (List.mem_cons_of_mem _ hq)
    by_cases h1 : cur.«end» + 1 < x.start
    · have hms : mergeStep (done, cur) x = (cur :: done, x) := by
        simp [mergeStep, h1]
      rw [hms] at hr
      refine ih (cur :: done) x hxs ?_ hx r hr
      intro q hq
      rcases List.mem_cons.mp hq with rfl | hq
      · exact hcur
      · exact hdone q hq
    · by_cases h2 : cur.«end» < x.«end»
      · have hms : mergeStep (done, cur) x =
            (done, ⟨cur.start, x.«end», min cur.index x.index⟩) := by
          simp [mergeStep, h1, h2]
        rw [hms] at hr
        refine ih done _ hxs hdone ?_ r hr
        obtain ⟨ha, hb, hc⟩ := hcur
        obtain ⟨hd, he, hf⟩ := hx
        refine ⟨ha, ?_, ?_⟩
        · show cur.start ≤ x.«end»
          omega
        · show x.«end» ≤ size - 1
          omega
      · have hms : mergeStep (done, cur) x = (done, cur) := by
          simp [mergeStep, h1, h2]
        rw [hms] at hr
        exact ih done cur hxs hdone hcur r hr

theorem combineRanges_ok {size : Int} {l : List IRange}
    (h : ∀ r ∈ l, ROk size r) : ∀ r ∈ combineRanges l, ROk size r := by
  intro r hr
  cases hord : isortBy (fun a b => a.start < b.start) l with
  | nil =>
    have hemp : combineRanges l = [] := by
      unfold combineRanges
      rw [hord]
    rw [hemp] at hr
    simp at hr
  | cons x rest =>
    have hcr : combineRanges l =
        isortBy (fun a b => a.index < b.index)
          (((rest.foldl mergeStep ([], x)).2 ::
            (rest.foldl mergeStep ([], x)).1).reverse) := by
      unfold combineRanges
      rw [hord]
    rw [hcr, mem_isortBy, List.mem_reverse] at hr
    have hsorted : ∀ q ∈ x :: rest, ROk size q := by
      intro q hq
      apply h
      have hq2 : q ∈ isortBy (fun a b => a.start < b.start) l := by
        rw [hord]; exact hq
      exact mem_isortBy.mp hq2
    exact foldl_mergeStep_ok rest [] x
      (fun q hq => hsorted q (List.mem_cons_of_mem _ hq))
      (by simp)
      (hsorted x (List.mem_cons_self _ _)) r hr

theorem combineRanges_ne_nil {x : IRange} {xs : List IRange} :
    combineRanges (x :: xs) ≠ [] := by
  intro hemp
  cases hord : isortBy (fun a b => a.start < b.start) (x :: xs) with
  | nil =>
    have hx : x ∈ isortBy (fun a b => a.start < b.start) (x :: xs) :=
      mem_isortBy.mpr (List.mem_cons_self _ _)
    rw [hord] at hx
    simp at hx
  | cons y rest =>
    have hcr : combineRanges (x :: xs) =
        isortBy (fun a b => a.index < b.index)
          (((rest.foldl mergeStep ([], y)).2 ::
            (rest.foldl mergeStep ([], y)).1).reverse) := by
      unfold combineRanges
      rw [hord]
    rw [hcr] at hemp
    have hm : (rest.foldl mergeStep ([], y)).2 ∈
        isortBy (fun a b => a.index < b.index)
          (((rest.foldl mergeStep ([], y)).2 ::
            (rest.foldl mergeStep ([], y)).1).reverse) :=
      mem_isortBy.mpr (by rw [List.mem_reverse]; exact List.mem_cons_self _ _)
    rw [hemp] at hm
    simp at hm

theorem rangeParser_ranges_sound {size : Nat} {str : List Char}
    {rs : List ByteRange} (h : rangeParser size str true = .ranges rs) :
    rs ≠ [] ∧ ∀ p ∈ rs, p.start ≤ p.«end» ∧ p.«end» < size := by
  simp only [rangeParser] at h
  split at h
  · exact absurd h (by simp)
  · rename_i spec heq
    cases hval : (splitOnChar ',' spec).filterMap (parseOneRange (size : Int)) with
    | nil =>
      rw [hval] at h
      exact absurd h (by simp)
    | cons v vt =>
      simp only [hval, if_true, RangeResult.ranges.injEq] at h
      have hvOk : ∀ p ∈ (splitOnChar ',' spec).filterMap (parseOneRange (size : Int)),
          0 ≤ p.1 ∧ p.1 ≤ p.2 ∧ p.2 ≤ (size : Int) - 1 := by
        intro p hp
        rw [List.mem_filterMap] at hp
        obtain ⟨s', _, hps⟩ := hp
        obtain ⟨p1, p2⟩ := p
        exact parseOneRange_sound hps
      have hvOk2 : ∀ p ∈ v :: vt,
          0 ≤ p.1 ∧ p.1 ≤ p.2 ∧ p.2 ≤ (size : Int) - 1 := by
        rw [← hval]
        exact hvOk
      have hcomb : ∀ r ∈ combineRanges (withIdx (v :: vt) 0), ROk (size : Int) r :=
        combineRanges_ok (withIdx_ok _ 0 hvOk2)
      constructor
      · intro hrs
        rw [hrs, List.map_eq_nil_iff] at h
        obtain ⟨v1, v2⟩ := v
        simp only [withIdx] at h
        exact combineRanges_ne_nil h
      · intro p hp
        rw [← h, List.mem_map] at hp
        obtain ⟨r, hrmem, rfl⟩ := hp
        obtain ⟨h1, h2, h3⟩ := hcomb r hrmem
        constructor
        · show r.start.toNat ≤ r.«end».toNat
          omega
        · show r.«end».toNat < size
          omega

/-- C8: whenever the handler decides PartialContent, the produced byte
window {start, end} satisfies start ≤ end < totalSize (both inclusive,
and nonnegative by construction). -/
theorem C8_window_invariant (size : Nat) (mt tg nm : String) (req : ReqHeaders)
    (s e : Nat)
    (h : (serveFile size mt tg nm req).decision = .partialContent s e) :
    s ≤ e ∧ e < size := by
  simp only [serveFile] at h
  split at h
  · exact absurd h (by simp)
  · split at h
    · split at h
      · exact absurd h (by simp)
      · exact absurd h (by simp)
      · rename_i rs heq
        obtain ⟨hne, hall⟩ := rangeParser_ranges_sound heq
        obtain ⟨r, rt, rfl⟩ := List.exists_cons_of_ne_nil hne
        simp only [List.headD_cons, Decision.partialContent.injEq] at h
        obtain ⟨rfl, rfl⟩ := h
        exact hall r (List.mem_cons_self _ _)
    · exact absurd h (by simp)

/-- Witness for C8: the window parsed from `bytes=200-299` at totalSize
1000 satisfies the invariant. -/
theorem C8_window_invariant_witness : 200 ≤ 299 ∧ 299 < 1000 :=
  C8_window_invariant 1000 "video/mp4" "W/\"abc\"" "movie.mp4"
    ⟨some "bytes=200-299", none, none, none⟩ 200 299 (by rfl)

end OhioFiles
